import Mathlib

/-!
Verification of `near.py`: a utility that finds search terms within a
specified line window.  The Python source is shallowly embedded below.
Line numbers are modelled as `Int` (the code uses the sentinel `-2` for
`last_added`, and an unvalidated window size may be negative).  Regular
expression matching is external to the core: a term's compiled matcher is
embedded as an opaque `String → Bool` argument wherever the code calls
`SearchTerm.found_in`.
-/

/-- The `AND_MATCH, OR_MATCH = range(2)` constants of the source. -/
inductive Operation where
  | and_match : Operation
  | or_match : Operation
deriving DecidableEq, Repr

/-- The `NO_BORDER, EXTEND_TO_BORDER, TRUNCATE_AT_BORDER = range(3)` constants. -/
inductive BorderAction where
  | no_border : BorderAction
  | extend_to_border : BorderAction
  | truncate_at_border : BorderAction
deriving DecidableEq, Repr

/-- Python exceptions that the per-file pipeline can raise past `search()`.
`search()` catches only `IOError`, so an `AttributeError` escapes. -/
inductive PyErr where
  | attributeError : PyErr
deriving DecidableEq, Repr

/-- `Config.__init__` of the source: the five configuration fields with their
defaults.  There is no `ordered` field. -/
structure Config where
  window_size : Int
  case_insensitive : Bool
  numbered_lines : Bool
  border_action : BorderAction
  elastic : Bool
deriving DecidableEq, Repr

/-- The default configuration built by `Config.__init__`. -/
def Config.default_config : Config :=
  { window_size := 8
    case_insensitive := false
    numbered_lines := true
    border_action := BorderAction.no_border
    elastic := true }

/-- The assignments performed on `app.config` by the `cli` body
(lines 316-319): every option is stored as parsed, without validation;
`border_action` keeps its default (the assignment is commented out). -/
def cliConfig (distance : Int) (elastic : Bool) (nocase : Bool) (number_lines : Bool) : Config :=
  { window_size := distance
    case_insensitive := nocase
    numbered_lines := number_lines
    border_action := BorderAction.no_border
    elastic := elastic }

/-- The `Window` class: inclusive line-number bounds, a match flag, and the
captured lines.  `end_` embeds the Python attribute `end`. -/
structure Window where
  start : Int
  end_ : Int
  has_match : Bool
  lines : List String
deriving DecidableEq, Repr

/-- `Window.__init__(lineno)` with `end=None`: `end` falls back to
`lineno + window_size`. -/
def Window.init (ws : Int) (lineno : Int) : Window :=
  { start := lineno, end_ := lineno + ws, has_match := false, lines := [] }

/-- `Window.dup`: `Window(self.start, self.end, match=self.has_match)`.
`__init__` computes `end if end else lineno + window_size`, so a passed end
of `0` is falsy in Python and falls back to `start + window_size`.  A fresh
window has empty `lines`. -/
def Window.dup (ws : Int) (w : Window) : Window :=
  { start := w.start
    end_ := if w.end_ = 0 then w.start + ws else w.end_
    has_match := w.has_match
    lines := [] }

/-- `Window.extend(lineno)`: `self.end = lineno + window_size`. -/
def Window.extend (ws : Int) (w : Window) (lineno : Int) : Window :=
  { w with end_ := lineno + ws }

/-- `Window.includes(lineno)`: `self.start <= lineno <= self.end`. -/
def Window.includes (w : Window) (lineno : Int) : Bool :=
  decide (w.start ≤ lineno ∧ lineno ≤ w.end_)

/-- `Window.merge(other, operation)`: if the other window matched, the end
becomes the minimum of the two ends; `has_match` is combined with `and`
for `AND_MATCH` and with `or` for `OR_MATCH`. -/
def Window.merge (w : Window) (other : Window) (op : Operation) : Window :=
  { w with
    end_ := if other.has_match then min w.end_ other.end_ else w.end_
    has_match :=
      match op with
      | Operation.and_match => w.has_match && other.has_match
      | Operation.or_match => w.has_match || other.has_match }

/-- `Window.capture(lines)`: `self.lines = lines[self.start:self.end+1]`,
a Python slice for the nonnegative indices reachable here. -/
def Window.capture (w : Window) (ls : List String) : Window :=
  { w with lines := (ls.drop w.start.toNat).take (w.end_ + 1 - w.start).toNat }

/-- `TermLineMap.at_or_after(start)`: the suffix of the (sorted) line-number
list from the first entry `≥ start`; the code uses `bisect_left`, which on a
sorted list equals dropping the prefix of entries `< start`. -/
def at_or_after (lm : List Int) (start : Int) : List Int :=
  lm.dropWhile (fun l => decide (l < start))

/-- `TermLineMap.match_line(lineno, line)`: append `lineno` when the term's
pattern is found in the line. -/
def match_line (found_in : String → Bool) (lm : List Int) (lineno : Int) (line : String) : List Int :=
  if found_in line then lm ++ [lineno] else lm

/-- The loop of `TermLineMap.match`.  State: the duplicated window `w` and
`last_added` (initially `-2`).  An in-range line is recorded; a line equal to
`last_added + 1` with `elastic` set stretches the window end by one;
otherwise the loop breaks.  On exit, if `last_added >= 0` the window end is
set to `last_added` and the window is marked matched. -/
def matchGo (elastic : Bool) (w : Window) (last_added : Int) : List Int → Window
  | [] =>
    if 0 ≤ last_added then { w with end_ := last_added, has_match := true } else w
  | l :: rest =>
    if w.includes l then
      matchGo elastic w l rest
    else if l = last_added + 1 ∧ elastic = true then
      matchGo elastic { w with end_ := w.end_ + 1 } l rest
    else
      if 0 ≤ last_added then { w with end_ := last_added, has_match := true } else w

/-- `TermLineMap.match(candidate)`: duplicate the candidate window, clear its
match flag, and run the loop over `at_or_after(window.start)`. -/
def tmatch (ws : Int) (elastic : Bool) (lm : List Int) (candidate : Window) : Window :=
  matchGo elastic { Window.dup ws candidate with has_match := false } (-2)
    (at_or_after lm candidate.start)

/-- The inner `while self and window.includes(self[0])` loop of
`TermLineMap.candidates`: keep popping line numbers into the window via
`extend`; return the extended window and the unconsumed rest. -/
def candidatesLoop (ws : Int) (w : Window) : List Int → Window × List Int
  | [] => (w, [])
  | l :: rest =>
    if w.includes l then candidatesLoop ws (Window.extend ws w l) rest
    else (w, l :: rest)

/-- The outer loop of `TermLineMap.candidates`, with explicit fuel: each
iteration pops at least one line number, so fuel equal to the list length is
enough.  Each candidate is yielded with `has_match = True`. -/
def candidatesListGo (ws : Int) : Nat → List Int → List Window
  | 0, _ => []
  | _ + 1, [] => []
  | fuel + 1, l :: rest =>
    { (candidatesLoop ws (Window.init ws l) rest).1 with has_match := true }
      :: candidatesListGo ws fuel (candidatesLoop ws (Window.init ws l) rest).2

/-- `TermLineMap.candidates()`: generate candidate windows starting at lines
containing the first (primary) search term, consuming the line map. -/
def candidatesList (ws : Int) (lm : List Int) : List Window :=
  candidatesListGo ws lm.length lm

/-- The inner `for term in self.term_linemaps[1:]` loop of
`scan_linemaps_for_window_matches`: merge each non-primary term's match of
the original candidate into the accumulated result. -/
def mergeAll (ws : Int) (elastic : Bool) (candidate : Window)
    (others : List (List Int × Operation)) (acc : Window) : Window :=
  others.foldl (fun r t => Window.merge r (tmatch ws elastic t.1 candidate) t.2) acc

/-- `SearchFile.scan_linemaps_for_window_matches`: for each candidate from
the primary term, fold the non-primary terms' matches into a duplicate of
the candidate and keep the result when its match flag survives. -/
def scan_linemaps (ws : Int) (elastic : Bool) (primary : List Int)
    (others : List (List Int × Operation)) : List Window :=
  (candidatesList ws primary).filterMap (fun window =>
    if (mergeAll ws elastic window others (Window.dup ws window)).has_match then
      some (mergeAll ws elastic window others (Window.dup ws window))
    else none)

/-- The scan as driven by a full `Config` (only `window_size` and `elastic`
reach the window logic). -/
def scan_with_config (cfg : Config) (primary : List Int)
    (others : List (List Int × Operation)) : List Window :=
  scan_linemaps cfg.window_size cfg.elastic primary others

/-- One term's share of the scan loop in `create_linemaps_for_terms`:
`match_line` applied along `enumerate(self.contents)`.  This is the
occurrence scanner without the broken border check that follows it. -/
def buildLinemapGo (found_in : String → Bool) (lineno : Int) : List String → List Int
  | [] => []
  | line :: rest => match_line found_in [] lineno line ++ buildLinemapGo found_in (lineno + 1) rest

/-- The body of `SearchFile.create_linemaps_for_terms`.  Each iteration first
runs `term.match_line(lineno, line)` for every term, then evaluates
`if self.border_term:`.  The constructor only ever assigns
`border_linemap`, so this attribute read raises `AttributeError` on every
iteration, i.e. as soon as the file has at least one line. -/
def createLinemapsGo (matchers : List (String → Bool)) (linemaps : List (List Int))
    (lineno : Int) : List String → Except PyErr (List (List Int))
  | [] => Except.ok linemaps
  | line :: _rest =>
    let _updated := List.zipWith (fun m lm => match_line m lm lineno line) matchers linemaps
    Except.error PyErr.attributeError

/-- `SearchFile.create_linemaps_for_terms`, starting from the empty line maps
built by `SearchFile.__init__`. -/
def create_linemaps_for_terms (matchers : List (String → Bool))
    (contents : List String) : Except PyErr (List (List Int)) :=
  createLinemapsGo matchers (matchers.map (fun _ => [])) 0 contents

/-- `SearchFile.search()`.  The file argument is the outcome of `open`: an
`IOError` (`Except.error ()`) is caught, a diagnostic is written to stderr
(modelled by the `Bool` in the result) and the method returns with no
windows.  Any other exception — here the `AttributeError` from
`create_linemaps_for_terms` — escapes.  On success the windows are captured
(`load_windows`). -/
def searchFile (cfg : Config) (terms : List ((String → Bool) × Operation))
    (file : Except Unit (List String)) : Except PyErr (List Window × Bool) :=
  match file with
  | Except.error _ => Except.ok ([], true)
  | Except.ok contents =>
    match create_linemaps_for_terms (terms.map (fun t => t.1)) contents with
    | Except.error e => Except.error e
    | Except.ok linemaps =>
      let primary := linemaps.headD []
      let others := (linemaps.drop 1).zip ((terms.drop 1).map (fun t => t.2))
      let wins := scan_linemaps cfg.window_size cfg.elastic primary others
      Except.ok (wins.map (fun w => Window.capture w contents), false)

/-- `AllSearchFiles.search()`: search and display each file in order; an
uncaught exception from one file aborts the remaining files. -/
def allFilesSearch (cfg : Config) (terms : List ((String → Bool) × Operation)) :
    List (Except Unit (List String)) → Except PyErr (List (List Window × Bool))
  | [] => Except.ok []
  | f :: rest => do
    let o ← searchFile cfg terms f
    let os ← allFilesSearch cfg terms rest
    pure (o :: os)

/-- Formalization of the specification's validity predicate, stated for
comparison with the code's sequential merge: valid iff every `AND`
(required) term matched the candidate window, and either no `OR` (optional)
terms are declared or at least one of them matched. -/
def specValid (ws : Int) (elastic : Bool) (candidate : Window)
    (others : List (List Int × Operation)) : Bool :=
  ((others.filter (fun t => t.2 == Operation.and_match)).all
      (fun t => (tmatch ws elastic t.1 candidate).has_match))
    && (((others.filter (fun t => t.2 == Operation.or_match)).isEmpty)
      || ((others.filter (fun t => t.2 == Operation.or_match)).any
          (fun t => (tmatch ws elastic t.1 candidate).has_match)))

/-- A window of the specification's window-builder state machine: inclusive
bounds, the transient tolerance `limit`, and the accumulated term ids. -/
structure SpecWindow where
  start : Int
  stop : Int
  limit : Int
  matched : List Nat
deriving DecidableEq, Repr

/-- The specification's window-builder transition rules, written from its
words for comparison with the code: in `IDLE`, a hit opens a window (subject
to ordered anchoring); in `OPEN`, a hit at `n ≤ limit` is absorbed with
`end := n` and `limit := n + window_size` — the limit slides on every
absorbed hit regardless of the term — a hit at `limit + 1` with elastic set
is stretched then absorbed the same way, and any other hit closes the window
and is re-evaluated in `IDLE`. -/
def specBuilderGo (ws : Int) (elastic : Bool) (ordered : Bool) (primaryId : Nat) :
    Option SpecWindow → List (Int × List Nat) → List SpecWindow
  | none, [] => []
  | some w, [] => [w]
  | none, (n, s) :: rest =>
    if ordered = true ∧ primaryId ∉ s then
      specBuilderGo ws elastic ordered primaryId none rest
    else
      specBuilderGo ws elastic ordered primaryId (some ⟨n, n, n + ws, s⟩) rest
  | some w, (n, s) :: rest =>
    if n ≤ w.limit then
      specBuilderGo ws elastic ordered primaryId
        (some ⟨w.start, n, n + ws, w.matched ∪ s⟩) rest
    else if elastic = true ∧ n = w.limit + 1 then
      specBuilderGo ws elastic ordered primaryId
        (some ⟨w.start, n, n + ws, w.matched ∪ s⟩) rest
    else
      w :: (if ordered = true ∧ primaryId ∉ s then
              specBuilderGo ws elastic ordered primaryId none rest
            else
              specBuilderGo ws elastic ordered primaryId (some ⟨n, n, n + ws, s⟩) rest)

/-- The specification's builder run on a whole hit stream, starting idle. -/
def specBuilderRun (ws : Int) (elastic : Bool) (ordered : Bool) (primaryId : Nat)
    (hits : List (Int × List Nat)) : List SpecWindow :=
  specBuilderGo ws elastic ordered primaryId none hits

/-- C1: the claim says window validity equals the required/optional
predicate and is order-independent.  On the code it is a sequential fold:
with primary hits `[0]`, a required (`AND`) term that never matches and an
optional (`OR`) term hitting line 1, the scan emits a window `(0,1)` as
valid even though the required term is absent (the spec predicate says
invalid), and swapping the two non-primary terms flips the decision to
invalid — the order matters. -/
theorem near_C1_fold_vs_validity_predicate :
    scan_linemaps 8 false [0] [([], Operation.and_match), ([1], Operation.or_match)]
        = [⟨0, 1, true, []⟩]
      ∧ specValid 8 false ⟨0, 8, true, []⟩
          [([], Operation.and_match), ([1], Operation.or_match)] = false
      ∧ scan_linemaps 8 false [0] [([1], Operation.or_match), ([], Operation.and_match)]
        = [] := by
  decide

/-- C2: the claim (and the `--elastic` help text) says a hit exactly one
line past the limit extends the window, giving a valid window with end 4
for primary `[0]`, second term `[4]`, window size 3.  The code's elastic
branch fires only when the hit is adjacent to a previously absorbed hit
(`lineno == last_added + 1`, with `last_added` initialized to `-2`), so the
lone hit at line 4 never extends: the scan yields no window with elastic
enabled, exactly as with elastic disabled. -/
theorem near_C2_elastic_boundary_not_extended :
    scan_linemaps 3 true [0] [([4], Operation.and_match)] = []
      ∧ scan_linemaps 3 false [0] [([4], Operation.and_match)] = [] := by
  decide

/-- C3 counterexample: the claim says absorbing any hit at `n ≤ limit`
slides the limit to `n + window_size` regardless of the term.  On hits
A at 0 and B at 2 and 5 with window size 3 and no elastic, the builder that
follows the claim absorbs line 5 (the limit slid to 5 after absorbing
line 2) and ends at 5, while the code's window ends at 2: the non-primary
match loop records an in-range hit without ever touching `window_size`, so
the hit at 5 lies outside the never-slid limit 3 and is dropped. -/
theorem near_C3_counterexample :
    specBuilderRun 3 false true 0 [(0, [0]), (2, [1]), (5, [1])] = [⟨0, 5, 8, [0, 1]⟩]
      ∧ scan_linemaps 3 false [0] [([2, 5], Operation.and_match)] = [⟨0, 2, true, []⟩]
      ∧ matchGo false ⟨0, 3, false, []⟩ (-2) [2, 5] = ⟨0, 2, true, []⟩ := by
  decide

/-- C5 counterexample: the claim says the configuration has an `ordered`
boolean and that with `ordered=false` a line matching only a non-primary
term opens a window there.  The code's `Config` has no such field and
candidate windows are generated exclusively from the primary term's line
map: when the primary term matches nothing and the non-primary term matches
line 0, no configuration whatsoever produces a window. -/
theorem near_C5_counterexample :
    ¬ ∃ cfg : Config, scan_with_config cfg [] [([0], Operation.and_match)] ≠ [] := by
  rintro ⟨cfg, h⟩
  exact h rfl

/-- C7: for every non-empty file, `create_linemaps_for_terms` raises
`AttributeError` (it reads `self.border_term`, which `__init__` never
assigns — it assigns `border_linemap`), and since `search()` catches only
`IOError`, the error escapes the per-file pipeline before any window is
produced. -/
theorem near_C7_attribute_error (cfg : Config) (terms : List ((String → Bool) × Operation))
    (contents : List String) (h : contents ≠ []) :
    create_linemaps_for_terms (terms.map (fun t => t.1)) contents
        = Except.error PyErr.attributeError
      ∧ searchFile cfg terms (Except.ok contents) = Except.error PyErr.attributeError := by
  match contents with
  | [] => exact absurd rfl h
  | line :: rest =>
    refine ⟨rfl, ?_⟩
    simp [searchFile, create_linemaps_for_terms, createLinemapsGo]

/-- C7 witness: the one-line file `["x"]` with the default configuration and
a single concrete term. -/
theorem near_C7_attribute_error_witness :
    (["x"] : List String) ≠ []
      ∧ (create_linemaps_for_terms
          ([((fun s => s == "x"), Operation.and_match)].map (fun t => t.1)) ["x"]
            = Except.error PyErr.attributeError
        ∧ searchFile Config.default_config [((fun s => s == "x"), Operation.and_match)]
            (Except.ok ["x"]) = Except.error PyErr.attributeError) :=
  ⟨by decide,
   near_C7_attribute_error Config.default_config
     [((fun s => s == "x"), Operation.and_match)] ["x"] (by decide)⟩

/-- C8: on the six-line file `["foo","bar","","","","baz"]` with primary
pattern `foo`, required pattern `baz`, window size 8 and elastic disabled,
the claim says the search yields one valid window `(0,5)` containing all six
lines.  The actual `search()` raises `AttributeError` before any window is
produced (the `border_term` slip), while the core scan run on the line maps
the occurrence scanner computes — `[0]` for `foo`, `[5]` for `baz` — does
yield exactly the claimed window with all six lines. -/
theorem near_C8_end_to_end :
    searchFile (cliConfig 8 false false false)
        [((fun s => s == "foo"), Operation.and_match),
         ((fun s => s == "baz"), Operation.and_match)]
        (Except.ok ["foo", "bar", "", "", "", "baz"])
        = Except.error PyErr.attributeError
      ∧ buildLinemapGo (fun s => s == "foo") 0 ["foo", "bar", "", "", "", "baz"] = [0]
      ∧ buildLinemapGo (fun s => s == "baz") 0 ["foo", "bar", "", "", "", "baz"] = [5]
      ∧ (scan_linemaps 8 false [0] [([5], Operation.and_match)]).map
          (fun w => Window.capture w ["foo", "bar", "", "", "", "baz"])
        = [⟨0, 5, true, ["foo", "bar", "", "", "", "baz"]⟩] := by
  refine ⟨rfl, by decide, by decide, by decide⟩

/-- C9 counterexample: the claim says a non-positive window size is rejected
before the first file is touched.  The cli stores `--distance 0` into the
configuration unchecked, and the scan then runs with it — here even emitting
a (single-line) window — so no rejection ever happens. -/
theorem near_C9_counterexample :
    (cliConfig 0 true false false).window_size = 0
      ∧ scan_with_config (cliConfig 0 true false false) [0] [([0], Operation.and_match)]
        = [⟨0, 0, true, []⟩] := by
  decide

/-- C10: when opening a file fails with an I/O error, `search()` catches the
`IOError`, surfaces a diagnostic (stderr), leaves the window list empty —
so no output, not even partial, is emitted for that file — and
`AllSearchFiles.search` continues with the remaining files exactly as if the
failed file contributed only its diagnostic. -/
theorem near_C10_io_error_skips_file (cfg : Config)
    (terms : List ((String → Bool) × Operation))
    (rest : List (Except Unit (List String))) :
    searchFile cfg terms (Except.error ()) = Except.ok ([], true)
      ∧ allFilesSearch cfg terms (Except.error () :: rest)
        = (allFilesSearch cfg terms rest).map (fun os => ([], true) :: os) := by
  refine ⟨rfl, ?_⟩
  show (do
      let o ← searchFile cfg terms (Except.error ())
      let os ← allFilesSearch cfg terms rest
      pure (o :: os)) = _
  cases h : allFilesSearch cfg terms rest <;>
    simp [searchFile, h, Except.map, Bind.bind, Except.bind, Pure.pure, Except.pure]

/-- `includes` unfolded to its defining inequalities. -/
theorem Window.includes_iff (w : Window) (l : Int) :
    w.includes l = true ↔ (w.start ≤ l ∧ l ≤ w.end_) := by
  simp [Window.includes]

/-- `merge` never moves the start of the receiving window. -/
theorem Window.merge_start (w other : Window) (op : Operation) :
    (Window.merge w other op).start = w.start := rfl

/-- `merge` never increases the end of the receiving window: it either keeps
it or takes a minimum with the other end. -/
theorem Window.merge_end_le (w other : Window) (op : Operation) :
    (Window.merge w other op).end_ ≤ w.end_ := by
  by_cases h : other.has_match = true <;>
    simp [Window.merge, h, min_le_left]

/-- `dup` keeps the start. -/
theorem Window.dup_start (ws : Int) (w : Window) : (Window.dup ws w).start = w.start := rfl

/-- `dup` keeps the match flag. -/
theorem Window.dup_has_match (ws : Int) (w : Window) :
    (Window.dup ws w).has_match = w.has_match := rfl

/-- `dup` never increases the end, provided the window satisfies the
candidate invariant `start + window_size ≤ end`. -/
theorem Window.dup_end_le (ws : Int) (w : Window) (h : w.start + ws ≤ w.end_) :
    (Window.dup ws w).end_ ≤ w.end_ := by
  unfold Window.dup
  dsimp only
  split
  · omega
  · exact le_refl _

/-- `dup` keeps the end exactly when the candidate invariant holds and the
fallback value is nonnegative (the Python falsiness of `end == 0` is then
unobservable). -/
theorem Window.dup_end_eq (ws : Int) (w : Window) (h0 : 0 ≤ w.start + ws)
    (h : w.start + ws ≤ w.end_) : (Window.dup ws w).end_ = w.end_ := by
  unfold Window.dup
  dsimp only
  split
  · omega
  · rfl

/-- `dup` of a window whose end is exactly `start + window_size` is that
window with fresh lines: both branches of the falsiness check agree. -/
theorem Window.dup_of_init_shape (ws : Int) (a : Int) (m : Bool) (ls : List String) :
    Window.dup ws ⟨a, a + ws, m, ls⟩ = ⟨a, a + ws, m, []⟩ := by
  unfold Window.dup
  dsimp only
  split
  · simp [*]
  · rfl

/-- The candidate inner loop preserves start, match flag and lines. -/
theorem candidatesLoop_preserve (ws : Int) :
    ∀ (xs : List Int) (w : Window),
      (candidatesLoop ws w xs).1.start = w.start
        ∧ (candidatesLoop ws w xs).1.has_match = w.has_match
        ∧ (candidatesLoop ws w xs).1.lines = w.lines := by
  intro xs
  induction xs with
  | nil => intro w; exact ⟨rfl, rfl, rfl⟩
  | cons l rest ih =>
    intro w
    by_cases h : w.includes l = true
    · simpa [candidatesLoop, h, Window.extend] using ih (Window.extend ws w l)
    · simp [candidatesLoop, h]

/-- The candidate inner loop preserves the invariant
`start + window_size ≤ end`. -/
theorem candidatesLoop_end_ge (ws : Int) :
    ∀ (xs : List Int) (w : Window), w.start + ws ≤ w.end_ →
      w.start + ws ≤ (candidatesLoop ws w xs).1.end_ := by
  intro xs
  induction xs with
  | nil => intro w h; exact h
  | cons l rest ih =>
    intro w h
    by_cases hinc : w.includes l = true
    · have hrw : candidatesLoop ws w (l :: rest)
          = candidatesLoop ws (Window.extend ws w l) rest := by
        simp [candidatesLoop, hinc]
      have hse := (Window.includes_iff w l).1 hinc
      have h' : (Window.extend ws w l).start + ws ≤ (Window.extend ws w l).end_ := by
        simp only [Window.extend]
        omega
      rw [hrw]
      simpa [Window.extend] using ih _ h'
    · simpa [candidatesLoop, hinc] using h

/-- The unconsumed rest returned by the candidate inner loop is a sublist of
its input. -/
theorem candidatesLoop_sublist (ws : Int) :
    ∀ (xs : List Int) (w : Window), (candidatesLoop ws w xs).2.Sublist xs := by
  intro xs
  induction xs with
  | nil => intro w; simp [candidatesLoop]
  | cons l rest ih =>
    intro w
    by_cases h : w.includes l = true
    · simpa [candidatesLoop, h] using (ih (Window.extend ws w l)).cons l
    · simp [candidatesLoop, h]

/-- On a sorted line map whose entries all lie beyond the window start, every
entry the candidate inner loop leaves unconsumed lies strictly beyond the
returned window's end. -/
theorem candidatesLoop_stop (ws : Int) :
    ∀ (xs : List Int) (w : Window), List.Pairwise (fun a b => a < b) xs →
      (∀ m ∈ xs, w.start < m) →
      ∀ m ∈ (candidatesLoop ws w xs).2, (candidatesLoop ws w xs).1.end_ < m := by
  intro xs
  induction xs with
  | nil => intro w _ _ m hm; simp [candidatesLoop] at hm
  | cons l rest ih =>
    intro w hp hs
    rcases List.pairwise_cons.1 hp with ⟨hlr, hp'⟩
    by_cases hinc : w.includes l = true
    · have hs' : ∀ m ∈ rest, (Window.extend ws w l).start < m := by
        intro m hm
        simpa [Window.extend] using hs m (List.mem_cons_of_mem _ hm)
      simpa [candidatesLoop, hinc] using ih (Window.extend ws w l) hp' hs'
    · have hnotinc : ¬ (w.start ≤ l ∧ l ≤ w.end_) := by
        intro hc; exact hinc ((Window.includes_iff w l).2 hc)
      have hl : w.start < l := hs l (List.mem_cons_self l rest)
      have hend : w.end_ < l := by omega
      have hrw : candidatesLoop ws w (l :: rest) = (w, l :: rest) := by
        simp [candidatesLoop, hinc]
      intro m hm
      rw [hrw] at hm ⊢
      rcases List.mem_cons.1 hm with h | h
      · subst h; exact hend
      · exact lt_trans hend (hlr m h)

/-- Every candidate window generated from a line map starts at one of its
entries, satisfies `start + window_size ≤ end`, is marked matched and has no
captured lines yet. -/
theorem candidatesListGo_facts (ws : Int) :
    ∀ (fuel : Nat) (xs : List Int), ∀ c ∈ candidatesListGo ws fuel xs,
      c.start ∈ xs ∧ c.start + ws ≤ c.end_ ∧ c.has_match = true ∧ c.lines = [] := by
  intro fuel
  induction fuel with
  | zero => intro xs c hc; simp [candidatesListGo] at hc
  | succ fuel ih =>
    intro xs c hc
    match xs with
    | [] => simp [candidatesListGo] at hc
    | l :: rest =>
      rw [candidatesListGo, List.mem_cons] at hc
      rcases hc with hc | hc
      · obtain ⟨hst, hhm, hln⟩ := candidatesLoop_preserve ws rest (Window.init ws l)
        have hge := candidatesLoop_end_ge ws rest (Window.init ws l) (le_refl _)
        have hst' : (candidatesLoop ws (Window.init ws l) rest).1.start = l := by
          simpa [Window.init] using hst
        subst hc
        refine ⟨?_, ?_, rfl, ?_⟩
        · show (candidatesLoop ws (Window.init ws l) rest).1.start ∈ l :: rest
          rw [hst']
          exact List.mem_cons_self l rest
        · show (candidatesLoop ws (Window.init ws l) rest).1.start + ws
            ≤ (candidatesLoop ws (Window.init ws l) rest).1.end_
          rw [hst']
          exact hge
        · show (candidatesLoop ws (Window.init ws l) rest).1.lines = []
          simpa [Window.init] using hln
      · obtain ⟨hmem, hrest⟩ := ih _ c hc
        have hsub := (candidatesLoop_sublist ws rest (Window.init ws l)).subset
        exact ⟨List.mem_cons_of_mem _ (hsub hmem), hrest⟩

/-- On a sorted line map, successive candidate windows are separated: every
earlier candidate's end lies strictly before every later candidate's start. -/
theorem candidatesListGo_pairwise (ws : Int) :
    ∀ (fuel : Nat) (xs : List Int), List.Pairwise (fun a b => a < b) xs →
      List.Pairwise (fun a b => a.end_ < b.start) (candidatesListGo ws fuel xs) := by
  intro fuel
  induction fuel with
  | zero => intro xs _; simp [candidatesListGo]
  | succ fuel ih =>
    intro xs hp
    match xs with
    | [] => simp [candidatesListGo]
    | l :: rest =>
      rcases List.pairwise_cons.1 hp with ⟨hlr, hp'⟩
      rw [candidatesListGo]
      refine List.pairwise_cons.2 ⟨?_, ?_⟩
      · intro d hd
        obtain ⟨hdmem, _⟩ := candidatesListGo_facts ws fuel _ d hd
        have hstop := candidatesLoop_stop ws rest (Window.init ws l) hp'
          (by intro m hm; simpa [Window.init] using hlr m hm)
        exact hstop d.start hdmem
      · exact ih _ (List.Pairwise.sublist (candidatesLoop_sublist ws rest (Window.init ws l)) hp')

/-- Folding the non-primary merges never moves the start of the accumulated
window. -/
theorem mergeAll_start (ws : Int) (e : Bool) (c : Window) :
    ∀ (others : List (List Int × Operation)) (acc : Window),
      (mergeAll ws e c others acc).start = acc.start := by
  intro others
  induction others with
  | nil => intro acc; rfl
  | cons t rest ih =>
    intro acc
    simpa [mergeAll] using
      (ih (Window.merge acc (tmatch ws e t.1 c) t.2)).trans
        (Window.merge_start acc (tmatch ws e t.1 c) t.2)

/-- Folding the non-primary merges never raises the end of the accumulated
window. -/
theorem mergeAll_end_le (ws : Int) (e : Bool) (c : Window) :
    ∀ (others : List (List Int × Operation)) (acc : Window),
      (mergeAll ws e c others acc).end_ ≤ acc.end_ := by
  intro others
  induction others with
  | nil => intro acc; exact le_refl _
  | cons t rest ih =>
    intro acc
    calc (mergeAll ws e c (t :: rest) acc).end_
        = (mergeAll ws e c rest (Window.merge acc (tmatch ws e t.1 c) t.2)).end_ := rfl
      _ ≤ (Window.merge acc (tmatch ws e t.1 c) t.2).end_ := ih _
      _ ≤ acc.end_ := Window.merge_end_le acc (tmatch ws e t.1 c) t.2

/-- The merged end is either the untouched accumulator end or the end of
some matched non-primary term's window. -/
theorem mergeAll_end_cases (ws : Int) (e : Bool) (c : Window) :
    ∀ (others : List (List Int × Operation)) (acc : Window),
      (mergeAll ws e c others acc).end_ = acc.end_
        ∨ ∃ t ∈ others, (tmatch ws e t.1 c).has_match = true
            ∧ (mergeAll ws e c others acc).end_ = (tmatch ws e t.1 c).end_ := by
  intro others
  induction others with
  | nil => intro acc; exact Or.inl rfl
  | cons t rest ih =>
    intro acc
    have hstep : mergeAll ws e c (t :: rest) acc
        = mergeAll ws e c rest (Window.merge acc (tmatch ws e t.1 c) t.2) := rfl
    rcases ih (Window.merge acc (tmatch ws e t.1 c) t.2) with h | ⟨t', ht', hm', he'⟩
    · by_cases hmt : (tmatch ws e t.1 c).has_match = true
      · rcases min_cases acc.end_ (tmatch ws e t.1 c).end_ with ⟨hmin, _⟩ | ⟨hmin, _⟩
        · refine Or.inl ?_
          rw [hstep, h]
          simp [Window.merge, hmt, hmin]
        · refine Or.inr ⟨t, List.mem_cons_self t rest, hmt, ?_⟩
          rw [hstep, h]
          simp [Window.merge, hmt, hmin]
      · refine Or.inl ?_
        rw [hstep, h]
        simp [Window.merge, hmt]
    · exact Or.inr ⟨t', List.mem_cons_of_mem _ ht', hm', by rw [hstep, he']⟩

/-- The merged end never exceeds the end of any matched non-primary term's
window: `merge` takes a minimum with each matched end. -/
theorem mergeAll_end_le_matched (ws : Int) (e : Bool) (c : Window) :
    ∀ (others : List (List Int × Operation)) (acc : Window),
      ∀ t ∈ others, (tmatch ws e t.1 c).has_match = true →
        (mergeAll ws e c others acc).end_ ≤ (tmatch ws e t.1 c).end_ := by
  intro others
  induction others with
  | nil => intro acc t ht; simp at ht
  | cons t' rest ih =>
    intro acc t ht hmt
    rcases List.mem_cons.1 ht with h | h
    · subst h
      calc (mergeAll ws e c (t :: rest) acc).end_
          = (mergeAll ws e c rest (Window.merge acc (tmatch ws e t.1 c) t.2)).end_ := rfl
        _ ≤ (Window.merge acc (tmatch ws e t.1 c) t.2).end_ := mergeAll_end_le ws e c rest _
        _ ≤ (tmatch ws e t.1 c).end_ := by simp [Window.merge, hmt, min_le_right]
    · exact ih _ t h hmt

/-- Once the accumulated match flag is false and no remaining term matches,
the fold keeps it false: an `AND` merge with a failed term stays false and an
`OR` merge with a failed term contributes nothing. -/
theorem mergeAll_stays_false (ws : Int) (e : Bool) (c : Window) :
    ∀ (others : List (List Int × Operation)) (acc : Window),
      (∀ t ∈ others, (tmatch ws e t.1 c).has_match = false) →
      acc.has_match = false → (mergeAll ws e c others acc).has_match = false := by
  intro others
  induction others with
  | nil => intro acc _ h; exact h
  | cons t rest ih =>
    intro acc hall hacc
    have ht := hall t (List.mem_cons_self t rest)
    have hstep : (Window.merge acc (tmatch ws e t.1 c) t.2).has_match = false := by
      cases t.2 <;> simp [Window.merge, ht, hacc]
    exact ih _ (fun t' ht' => hall t' (List.mem_cons_of_mem _ ht')) hstep

/-- If some required (`AND`) term is declared and no non-primary term
matches the candidate, the merged window is invalid, whatever the
accumulator's initial flag. -/
theorem mergeAll_false_of_and (ws : Int) (e : Bool) (c : Window) :
    ∀ (others : List (List Int × Operation)) (acc : Window),
      (∀ t ∈ others, (tmatch ws e t.1 c).has_match = false) →
      (∃ t ∈ others, t.2 = Operation.and_match) →
      (mergeAll ws e c others acc).has_match = false := by
  intro others
  induction others with
  | nil => intro acc _ h; simp at h
  | cons t rest ih =>
    intro acc hall hand
    have ht := hall t (List.mem_cons_self t rest)
    have hrest : ∀ t' ∈ rest, (tmatch ws e t'.1 c).has_match = false :=
      fun t' ht' => hall t' (List.mem_cons_of_mem _ ht')
    rcases hand with ⟨t0, ht0, hop⟩
    rcases List.mem_cons.1 ht0 with h | h
    · subst h
      have hstep : (Window.merge acc (tmatch ws e t0.1 c) t0.2).has_match = false := by
        rw [hop]
        simp [Window.merge, ht]
      exact mergeAll_stays_false ws e c rest _ hrest hstep
    · exact ih _ hrest ⟨t0, h, hop⟩

/-- With elastic disabled, the match loop never raises the window end beyond
its initial bound: an in-range line is only recorded, and the final end is
the recorded line, which was inside the bound. -/
theorem matchGo_end_le_no_elastic :
    ∀ (xs : List Int) (w : Window) (last : Int), (last < 0 ∨ last ≤ w.end_) →
      (matchGo false w last xs).end_ ≤ w.end_ := by
  intro xs
  induction xs with
  | nil =>
    intro w last h
    by_cases h0 : (0:Int) ≤ last
    · have hred : matchGo false w last [] = { w with end_ := last, has_match := true } := by
        simp [matchGo, h0]
      rw [hred]
      show last ≤ w.end_
      rcases h with h | h
      · omega
      · exact h
    · have hred : matchGo false w last [] = w := by simp [matchGo, h0]
      rw [hred]
  | cons l rest ih =>
    intro w last h
    by_cases hinc : w.includes l = true
    · have hred : matchGo false w last (l :: rest) = matchGo false w l rest := by
        simp [matchGo, hinc]
      rw [hred]
      exact ih w l (Or.inr ((Window.includes_iff w l).1 hinc).2)
    · have hred : matchGo false w last (l :: rest)
          = if 0 ≤ last then { w with end_ := last, has_match := true } else w := by
        simp [matchGo, hinc]
      rw [hred]
      by_cases h0 : (0:Int) ≤ last
      · rw [if_pos h0]
        show last ≤ w.end_
        rcases h with h | h
        · omega
        · exact h
      · rw [if_neg h0]

/-- Starting from the sentinel `last_added = -2`, a match loop whose input
contains only nonnegative lines that all fall outside the window returns the
window unchanged: the in-range branch never fires, and the elastic branch
would need a line equal to `-1`. -/
theorem matchGo_no_op (e : Bool) (w : Window) :
    ∀ (xs : List Int), (∀ m ∈ xs, 0 ≤ m) →
      (∀ m ∈ xs, ¬ (w.start ≤ m ∧ m ≤ w.end_)) →
      matchGo e w (-2) xs = w := by
  intro xs h0 hni
  match xs with
  | [] => simp [matchGo]
  | l :: rest =>
    have hincP : ¬ (w.includes l = true) := by
      rw [Window.includes_iff]
      exact hni l (List.mem_cons_self l rest)
    have hcond : ¬ (l = (-2:Int) + 1 ∧ e = true) := by
      intro hc
      have := h0 l (List.mem_cons_self l rest)
      omega
    have hlast : ¬ ((0:Int) ≤ -2) := by omega
    simp only [matchGo]
    rw [if_neg hincP, if_neg hcond, if_neg hlast]

/-- Main invariant of the `TermLineMap.match` loop.  Over a suffix `xs` of
the term's hits, with `w.start` fixed at `s0`, the original bound recorded
as `e0`, and `last_added` either the sentinel or a previously recorded hit:
if the loop reports a match, the final end is a hit at or after `s0`, and if
it exceeds the original bound `e0` then `e0` itself was a hit (the elastic
chain had to pass through it). -/
theorem matchGo_spec (e : Bool) (hits : List Int) (s0 e0 : Int) :
    ∀ (xs : List Int) (w : Window) (last : Int),
      (∀ l ∈ xs, 0 ≤ l ∧ l ∈ hits) →
      w.start = s0 → w.has_match = false →
      (last = -2 ∨ (last ∈ hits ∧ s0 ≤ last ∧ 0 ≤ last)) →
      last ≤ w.end_ →
      (w.end_ = e0 ∨ (e0 < w.end_ ∧ e0 ∈ hits)) →
      (matchGo e w last xs).has_match = true →
      ((matchGo e w last xs).end_ ∈ hits ∧ s0 ≤ (matchGo e w last xs).end_
        ∧ (e0 < (matchGo e w last xs).end_ → e0 ∈ hits)) := by
  intro xs
  induction xs with
  | nil =>
    intro w last hxs hs hm hlast hle hend hmatch
    by_cases h0 : (0:Int) ≤ last
    · have hred : matchGo e w last [] = { w with end_ := last, has_match := true } := by
        simp [matchGo, h0]
      rw [hred]
      rcases hlast with h2 | ⟨hmem, hs0, _⟩
      · exact absurd h0 (by omega)
      · refine ⟨hmem, hs0, fun hlt => ?_⟩
        have hlt' : e0 < last := hlt
        rcases hend with he | ⟨_, hmem2⟩
        · exact absurd hlt' (by omega)
        · exact hmem2
    · have hred : matchGo e w last [] = w := by simp [matchGo, h0]
      rw [hred] at hmatch
      rw [hm] at hmatch
      exact absurd hmatch Bool.false_ne_true
  | cons l rest ih =>
    intro w last hxs hs hm hlast hle hend hmatch
    obtain ⟨hl0, hlmem⟩ := hxs l (List.mem_cons_self l rest)
    have hxs' : ∀ m ∈ rest, 0 ≤ m ∧ m ∈ hits :=
      fun m hm' => hxs m (List.mem_cons_of_mem _ hm')
    by_cases hinc : w.includes l = true
    · have hred : matchGo e w last (l :: rest) = matchGo e w l rest := by
        simp [matchGo, hinc]
      obtain ⟨hs1, hs2⟩ := (Window.includes_iff w l).1 hinc
      rw [hred] at hmatch ⊢
      exact ih w l hxs' hs hm (Or.inr ⟨hlmem, by omega, hl0⟩) hs2 hend hmatch
    · by_cases hcond : (l = last + 1 ∧ e = true)
      · have hred : matchGo e w last (l :: rest)
            = matchGo e { w with end_ := w.end_ + 1 } l rest := by
          simp only [matchGo]
          rw [if_neg hinc, if_pos hcond]
        rcases hlast with h2 | ⟨hmem, hs0, hnn⟩
        · exfalso
          have h1 := hcond.1
          omega
        · have hnotinc : ¬ (w.start ≤ l ∧ l ≤ w.end_) :=
            fun hc => hinc ((Window.includes_iff w l).2 hc)
          have h1 := hcond.1
          have hsl : w.start ≤ l := by omega
          have hlgt : w.end_ < l := by
            by_contra hcon
            push_neg at hcon
            exact hnotinc ⟨hsl, hcon⟩
          have hlast_eq : last = w.end_ := by omega
          rw [hred] at hmatch ⊢
          refine ih { w with end_ := w.end_ + 1 } l hxs' hs hm
            (Or.inr ⟨hlmem, by omega, hl0⟩) ?_ ?_ hmatch
          · show l ≤ w.end_ + 1
            omega
          · rcases hend with he | ⟨hlt, hmem2⟩
            · refine Or.inr ⟨?_, ?_⟩
              · show e0 < w.end_ + 1
                omega
              · have he0 : e0 = last := by omega
                rw [he0]
                exact hmem
            · refine Or.inr ⟨?_, hmem2⟩
              show e0 < w.end_ + 1
              omega
      · have hred : matchGo e w last (l :: rest)
            = if 0 ≤ last then { w with end_ := last, has_match := true } else w := by
          simp [matchGo, hinc, hcond]
        rw [hred] at hmatch ⊢
        by_cases h0 : (0:Int) ≤ last
        · rw [if_pos h0] at hmatch ⊢
          rcases hlast with h2 | ⟨hmem, hs0, _⟩
          · exact absurd h0 (by omega)
          · refine ⟨hmem, hs0, fun hlt => ?_⟩
            have hlt' : e0 < last := hlt
            rcases hend with he | ⟨_, hmem2⟩
            · exact absurd hlt' (by omega)
            · exact hmem2
        · rw [if_neg h0] at hmatch
          rw [hm] at hmatch
          exact absurd hmatch Bool.false_ne_true

/-- `TermLineMap.match` facts for a candidate window whose `dup` keeps its
end: a reported match ends at one of the term's hit lines at or after the
window start, and an end beyond the candidate bound forces the bound line
itself to be a hit. -/
theorem tmatch_spec (ws : Int) (e : Bool) (hits : List Int) (c : Window)
    (hnn : ∀ l ∈ hits, 0 ≤ l) (hdup : (Window.dup ws c).end_ = c.end_)
    (hce : 0 ≤ c.end_) (hmatch : (tmatch ws e hits c).has_match = true) :
    (tmatch ws e hits c).end_ ∈ hits ∧ c.start ≤ (tmatch ws e hits c).end_
      ∧ (c.end_ < (tmatch ws e hits c).end_ → c.end_ ∈ hits) := by
  have hsub : ∀ l ∈ at_or_after hits c.start, 0 ≤ l ∧ l ∈ hits := by
    intro l hl
    have hmem : l ∈ hits := (List.dropWhile_sublist _).subset hl
    exact ⟨hnn l hmem, hmem⟩
  have hwend : ({ Window.dup ws c with has_match := false } : Window).end_ = c.end_ := hdup
  exact matchGo_spec e hits c.start c.end_ (at_or_after hits c.start)
    { Window.dup ws c with has_match := false } (-2) hsub rfl rfl (Or.inl rfl)
    (by rw [hwend]; omega) (Or.inl hwend) hmatch

/-- For a candidate generated from a nonnegative line map with nonnegative
window size, `dup` keeps its end, and the candidate's bounds are ordered and
nonnegative, its start being one of the primary hits. -/
theorem candidate_dup_end (ws : Int) (primary : List Int) (c : Window)
    (hws : 0 ≤ ws) (hp : ∀ l ∈ primary, 0 ≤ l) (hc : c ∈ candidatesList ws primary) :
    (Window.dup ws c).end_ = c.end_ ∧ 0 ≤ c.end_ ∧ c.start ≤ c.end_ ∧ c.start ∈ primary := by
  obtain ⟨hmem, hge, _, _⟩ := candidatesListGo_facts ws primary.length primary c hc
  have h0 : 0 ≤ c.start := hp _ hmem
  exact ⟨Window.dup_end_eq ws c (by omega) hge, by omega, by omega, hmem⟩

/-- Pairwise transfer along `filterMap`, with list membership available to
relate each kept element to its source. -/
theorem pairwise_filterMap_mem {α β : Type} (f : α → Option β)
    (R : α → α → Prop) (S : β → β → Prop) :
    ∀ (l : List α), List.Pairwise R l →
      (∀ a ∈ l, ∀ b ∈ l, ∀ x y, R a b → f a = some x → f b = some y → S x y) →
      List.Pairwise S (l.filterMap f) := by
  intro l
  induction l with
  | nil => intro _ _; simp
  | cons a l ih =>
    intro hp h
    rcases List.pairwise_cons.1 hp with ⟨hal, hp'⟩
    rw [List.filterMap_cons]
    cases hfa : f a with
    | none =>
      exact ih hp' (fun b hb b' hb' x y hr h1 h2 =>
        h b (List.mem_cons_of_mem _ hb) b' (List.mem_cons_of_mem _ hb') x y hr h1 h2)
    | some x =>
      refine List.pairwise_cons.2 ⟨?_, ?_⟩
      · intro y hy
        obtain ⟨b, hb, hfb⟩ := List.mem_filterMap.1 hy
        exact h a (List.mem_cons_self a l) b (List.mem_cons_of_mem _ hb) x y (hal b hb) hfa hfb
      · exact ih hp' (fun b hb b' hb' x' y hr h1 h2 =>
          h b (List.mem_cons_of_mem _ hb) b' (List.mem_cons_of_mem _ hb') x' y hr h1 h2)

/-- C3 amended: only the primary term's hits slide the window limit.
Absorbing a primary hit at line `n` during candidate construction sets the
candidate bound to `n + window_size` (`Window.extend`); a non-primary term's
match never advances the bound — with elastic disabled its resulting end
never exceeds the duplicated candidate's bound, and `merge` can only lower
the final end, never raise it. -/
theorem near_C3_amended_limit_slides_only_for_primary :
    (∀ (ws : Int) (w : Window) (l : Int), (Window.extend ws w l).end_ = l + ws)
      ∧ (∀ (ws : Int) (lm : List Int) (c : Window),
          (tmatch ws false lm c).end_ ≤ (Window.dup ws c).end_)
      ∧ (∀ (w other : Window) (op : Operation), (Window.merge w other op).end_ ≤ w.end_) := by
  refine ⟨fun ws w l => rfl, fun ws lm c => ?_, fun w other op => Window.merge_end_le w other op⟩
  exact matchGo_end_le_no_elastic (at_or_after lm c.start)
    { Window.dup ws c with has_match := false } (-2) (Or.inl (by omega))

/-- C4: for every finalized window, the end bound is the line number of a
hit actually absorbed into the window — a line at which some non-primary
term matched, lying inside the reported range — never the transient
tolerance limit, so the reported range never extends past the last matching
line it contains.  (The hypotheses mirror the program: line numbers are
nonnegative, the window size from the cli is nonnegative, and the cli always
declares at least one required (`AND`) non-primary term.) -/
theorem near_C4_end_is_absorbed_hit (ws : Int) (e : Bool) (primary : List Int)
    (others : List (List Int × Operation))
    (hws : 0 ≤ ws) (hp : ∀ l ∈ primary, 0 ≤ l)
    (ho : ∀ t ∈ others, ∀ l ∈ t.1, 0 ≤ l)
    (hand : ∃ t ∈ others, t.2 = Operation.and_match) :
    ∀ w ∈ scan_linemaps ws e primary others,
      w.start ≤ w.end_ ∧ ∃ t ∈ others, w.end_ ∈ t.1 := by
  intro w hw
  rw [scan_linemaps, List.mem_filterMap] at hw
  obtain ⟨c, hc, heq⟩ := hw
  by_cases hres : (mergeAll ws e c others (Window.dup ws c)).has_match = true
  case neg => rw [if_neg hres] at heq; cases heq
  rw [if_pos hres] at heq
  obtain rfl := Option.some.inj heq
  obtain ⟨hdup, hce, hcse, hcmem⟩ := candidate_dup_end ws primary c hws hp hc
  have hstart : (mergeAll ws e c others (Window.dup ws c)).start = c.start := by
    rw [mergeAll_start]
    rfl
  have hmatched : ∃ t ∈ others, (tmatch ws e t.1 c).has_match = true := by
    by_contra hno
    push_neg at hno
    have hall : ∀ t ∈ others, (tmatch ws e t.1 c).has_match = false := by
      intro t ht
      cases hb : (tmatch ws e t.1 c).has_match
      · rfl
      · exact absurd hb (hno t ht)
    rw [mergeAll_false_of_and ws e c others _ hall hand] at hres
    exact absurd hres Bool.false_ne_true
  rcases mergeAll_end_cases ws e c others (Window.dup ws c) with hcase | ⟨t, ht, htm, hteq⟩
  · have hend : (mergeAll ws e c others (Window.dup ws c)).end_ = c.end_ := by
      rw [hcase, hdup]
    obtain ⟨t0, ht0, ht0m⟩ := hmatched
    have hle0 := mergeAll_end_le_matched ws e c others (Window.dup ws c) t0 ht0 ht0m
    obtain ⟨hin, hstart0, hpast⟩ := tmatch_spec ws e t0.1 c (ho t0 ht0) hdup hce ht0m
    refine ⟨?_, t0, ht0, ?_⟩
    · rw [hstart, hend]
      exact hcse
    · rw [hend]
      rcases lt_or_eq_of_le (hend ▸ hle0 : c.end_ ≤ (tmatch ws e t0.1 c).end_) with hlt | heq2
      · exact hpast hlt
      · rw [heq2]
        exact hin
  · obtain ⟨hin, hstart0, _⟩ := tmatch_spec ws e t.1 c (ho t ht) hdup hce htm
    refine ⟨?_, t, ht, ?_⟩
    · rw [hstart, hteq]
      exact hstart0
    · rw [hteq]
      exact hin

/-- C4 witness: window size 8, primary hits `[0]`, one required term hitting
`[5]`; the emitted window `(0,5)` ends at the absorbed hit 5. -/
theorem near_C4_end_is_absorbed_hit_witness :
    ((0:Int) ≤ 8 ∧ (∀ l ∈ ([0] : List Int), 0 ≤ l)
        ∧ (∀ t ∈ ([([5], Operation.and_match)] : List (List Int × Operation)), ∀ l ∈ t.1, 0 ≤ l)
        ∧ (∃ t ∈ ([([5], Operation.and_match)] : List (List Int × Operation)),
            t.2 = Operation.and_match))
      ∧ ∀ w ∈ scan_linemaps 8 false [0] [([5], Operation.and_match)],
          w.start ≤ w.end_ ∧ ∃ t ∈ ([([5], Operation.and_match)] : List (List Int × Operation)),
            w.end_ ∈ t.1 :=
  ⟨⟨by decide, by decide, by decide, by decide⟩,
   near_C4_end_is_absorbed_hit 8 false [0] [([5], Operation.and_match)]
     (by decide) (by decide) (by decide) (by decide)⟩

/-- C5 amended: the configuration has no `ordered` flag; under every
configuration, a window can only open at a line where the primary term
matched — every emitted window's start is one of the primary term's hit
lines — so a line matching only a non-primary term never opens a window. -/
theorem near_C5_amended_windows_anchor_on_primary (cfg : Config) (primary : List Int)
    (others : List (List Int × Operation)) :
    ∀ w ∈ scan_with_config cfg primary others, w.start ∈ primary := by
  intro w hw
  rw [scan_with_config, scan_linemaps, List.mem_filterMap] at hw
  obtain ⟨c, hc, heq⟩ := hw
  by_cases hres : (mergeAll cfg.window_size cfg.elastic c others
      (Window.dup cfg.window_size c)).has_match = true
  case neg => rw [if_neg hres] at heq; cases heq
  rw [if_pos hres] at heq
  obtain rfl := Option.some.inj heq
  obtain ⟨hmem, _, _, _⟩ :=
    candidatesListGo_facts cfg.window_size primary.length primary c hc
  have hst : (mergeAll cfg.window_size cfg.elastic c others
      (Window.dup cfg.window_size c)).start = c.start := by
    rw [mergeAll_start]
    rfl
  rw [hst]
  exact hmem

/-- C6: for every file and configuration, the final windows are emitted in
strictly increasing start order and never overlap: each earlier window's end
lies strictly before each later window's start.  (Line maps are sorted by
construction — line numbers are appended during a sequential scan.) -/
theorem near_C6_no_overlap (ws : Int) (e : Bool) (primary : List Int)
    (others : List (List Int × Operation))
    (hws : 0 ≤ ws) (hsorted : List.Pairwise (fun a b => a < b) primary) :
    List.Pairwise (fun a b => a.start < b.start ∧ a.end_ < b.start)
      (scan_linemaps ws e primary others) := by
  rw [scan_linemaps]
  refine pairwise_filterMap_mem _ (fun a b => a.end_ < b.start) _ _
    (candidatesListGo_pairwise ws primary.length primary hsorted) ?_
  intro a ha b hb x y hr hfa hfb
  by_cases hma : (mergeAll ws e a others (Window.dup ws a)).has_match = true
  case neg => rw [if_neg hma] at hfa; cases hfa
  rw [if_pos hma] at hfa
  obtain rfl := Option.some.inj hfa
  by_cases hmb : (mergeAll ws e b others (Window.dup ws b)).has_match = true
  case neg => rw [if_neg hmb] at hfb; cases hfb
  rw [if_pos hmb] at hfb
  obtain rfl := Option.some.inj hfb
  obtain ⟨_, hga, _, _⟩ := candidatesListGo_facts ws primary.length primary a ha
  obtain ⟨_, hgb, _, _⟩ := candidatesListGo_facts ws primary.length primary b hb
  have hxs : (mergeAll ws e a others (Window.dup ws a)).start = a.start := by
    rw [mergeAll_start]
    rfl
  have hys : (mergeAll ws e b others (Window.dup ws b)).start = b.start := by
    rw [mergeAll_start]
    rfl
  have hxe : (mergeAll ws e a others (Window.dup ws a)).end_ ≤ a.end_ :=
    le_trans (mergeAll_end_le ws e a others _) (Window.dup_end_le ws a hga)
  constructor
  · rw [hxs, hys]
    omega
  · rw [hys]
    omega

/-- C6 witness: window size 3, sorted primary hits `[0, 10]`, one required
term hitting `[1]`; the emitted windows are separated. -/
theorem near_C6_no_overlap_witness :
    ((0:Int) ≤ 3 ∧ List.Pairwise (fun a b => a < b) ([0, 10] : List Int))
      ∧ List.Pairwise (fun a b => a.start < b.start ∧ a.end_ < b.start)
          (scan_linemaps 3 false [0, 10] [([1], Operation.and_match)]) :=
  ⟨⟨by decide, by decide⟩,
   near_C6_no_overlap 3 false [0, 10] [([1], Operation.and_match)] (by decide) (by decide)⟩

/-- A candidate-construction loop whose window cannot reach any later line
(bound at or below the start, all later lines beyond the start) consumes
nothing. -/
theorem candidatesLoop_no_extension (ws : Int) (w : Window) :
    ∀ (xs : List Int), (∀ m ∈ xs, w.start < m) → w.end_ ≤ w.start →
      candidatesLoop ws w xs = (w, xs) := by
  intro xs h hle
  match xs with
  | [] => rfl
  | l :: rest =>
    have h1 := h l (List.mem_cons_self l rest)
    have hincP : ¬ (w.includes l = true) := by
      rw [Window.includes_iff]
      omega
    simp [candidatesLoop, hincP]

/-- With a non-positive window size and a sorted line map, every candidate
window is a single primary hit with bound `hit + window_size`. -/
theorem candidatesListGo_no_extension (ws : Int) (hws : ws ≤ 0) :
    ∀ (fuel : Nat) (xs : List Int), xs.length ≤ fuel →
      List.Pairwise (fun a b => a < b) xs →
      candidatesListGo ws fuel xs
        = xs.map (fun l => (⟨l, l + ws, true, []⟩ : Window)) := by
  intro fuel
  induction fuel with
  | zero =>
    intro xs hlen _
    have hnil : xs = [] := List.eq_nil_of_length_eq_zero (Nat.le_zero.1 hlen)
    subst hnil
    rfl
  | succ fuel ih =>
    intro xs hlen hp
    match xs with
    | [] => rfl
    | l :: rest =>
      rcases List.pairwise_cons.1 hp with ⟨hlr, hp'⟩
      have hloop : candidatesLoop ws (Window.init ws l) rest = (Window.init ws l, rest) :=
        candidatesLoop_no_extension ws (Window.init ws l) rest
          (by
            intro m hm
            show l < m
            exact hlr m hm)
          (by
            show l + ws ≤ l
            omega)
      have hstep : candidatesListGo ws (fuel + 1) (l :: rest)
          = ({ (candidatesLoop ws (Window.init ws l) rest).1 with has_match := true }
              :: candidatesListGo ws fuel (candidatesLoop ws (Window.init ws l) rest).2) := rfl
      rw [hstep, hloop]
      have hlen' : rest.length ≤ fuel := by
        simp only [List.length_cons] at hlen
        omega
      rw [List.map_cons]
      congr 1
      exact ih rest hlen' hp'

/-- C9 amended: invalid pattern syntax and a wrong number of positional
terms are stopped before any file is scanned (by regex compilation during
term construction in the cli body and by the argument parser), but a
non-positive window size is never validated: the cli stores it in the
configuration unchanged and the files are scanned with it — and with
`window_size ≤ 0` any window such a scan emits collapses to a single line
(`end = start`). -/
theorem near_C9_amended_size_never_validated (d : Int) (e n c : Bool)
    (primary : List Int) (others : List (List Int × Operation))
    (hd : d ≤ 0)
    (hsorted : List.Pairwise (fun a b => a < b) primary)
    (hp : ∀ l ∈ primary, 0 ≤ l)
    (ho : ∀ t ∈ others, ∀ l ∈ t.1, 0 ≤ l)
    (hand : ∃ t ∈ others, t.2 = Operation.and_match) :
    (cliConfig d e n c).window_size = d
      ∧ ∀ w ∈ scan_with_config (cliConfig d e n c) primary others, w.end_ = w.start := by
  refine ⟨rfl, ?_⟩
  intro w hw
  have hw' : w ∈ scan_linemaps d e primary others := hw
  rw [scan_linemaps, List.mem_filterMap] at hw'
  obtain ⟨cd, hc, heq⟩ := hw'
  by_cases hres : (mergeAll d e cd others (Window.dup d cd)).has_match = true
  case neg => rw [if_neg hres] at heq; cases heq
  rw [if_pos hres] at heq
  obtain rfl := Option.some.inj heq
  have hcl : cd ∈ primary.map (fun l => (⟨l, l + d, true, []⟩ : Window)) := by
    rw [← candidatesListGo_no_extension d hd primary.length primary (le_refl _) hsorted]
    exact hc
  obtain ⟨l, hl, rfl⟩ := List.mem_map.1 hcl
  have hl0 : 0 ≤ l := hp l hl
  have hdup : Window.dup d (⟨l, l + d, true, []⟩ : Window) = ⟨l, l + d, true, []⟩ :=
    Window.dup_of_init_shape d l true []
  have hstart : (mergeAll d e (⟨l, l + d, true, []⟩ : Window) others
      (Window.dup d (⟨l, l + d, true, []⟩ : Window))).start = l := by
    rw [mergeAll_start, hdup]
  rcases lt_or_eq_of_le hd with hdlt | hdeq
  · exfalso
    have hall : ∀ t ∈ others,
        (tmatch d e t.1 (⟨l, l + d, true, []⟩ : Window)).has_match = false := by
      intro t ht
      have hw0 : ({ Window.dup d (⟨l, l + d, true, []⟩ : Window) with
          has_match := false } : Window) = ⟨l, l + d, false, []⟩ := by
        rw [hdup]
      have hno := matchGo_no_op e (⟨l, l + d, false, []⟩ : Window) (at_or_after t.1 l)
        (fun m hm => (ho t ht) m ((List.dropWhile_sublist _).subset hm))
        (by
          intro m hm
          show ¬ (l ≤ m ∧ m ≤ l + d)
          omega)
      show (matchGo e ({ Window.dup d (⟨l, l + d, true, []⟩ : Window) with
          has_match := false }) (-2) (at_or_after t.1 l)).has_match = false
      rw [hw0, hno]
    rw [mergeAll_false_of_and d e _ others _ hall hand] at hres
    exact absurd hres Bool.false_ne_true
  · subst hdeq
    rw [hstart]
    have hle : (mergeAll 0 e (⟨l, l + 0, true, []⟩ : Window) others
        (Window.dup 0 (⟨l, l + 0, true, []⟩ : Window))).end_ ≤ l := by
      have h1 := mergeAll_end_le 0 e (⟨l, l + 0, true, []⟩ : Window) others
        (Window.dup 0 (⟨l, l + 0, true, []⟩ : Window))
      have h2 : (Window.dup 0 (⟨l, l + 0, true, []⟩ : Window)).end_ = l + 0 := by
        rw [hdup]
      omega
    rcases mergeAll_end_cases 0 e (⟨l, l + 0, true, []⟩ : Window) others
        (Window.dup 0 (⟨l, l + 0, true, []⟩ : Window)) with hcase | ⟨t, ht, htm, hteq⟩
    · rw [hcase, hdup]
      show l + 0 = l
      omega
    · obtain ⟨_, hstart0, _⟩ := tmatch_spec 0 e t.1 (⟨l, l + 0, true, []⟩ : Window)
        (ho t ht) (by rw [hdup]) (by show (0:Int) ≤ l + 0; omega) htm
      have h1 : l ≤ (tmatch 0 e t.1 (⟨l, l + 0, true, []⟩ : Window)).end_ := hstart0
      rw [hteq]
      omega

/-- C9 amended witness: distance 0, primary hits `[2]`, a required term
hitting `[2]`; the configuration stores window size 0 and the scan emits
only the single-line window at 2. -/
theorem near_C9_amended_size_never_validated_witness :
    ((0:Int) ≤ 0 ∧ List.Pairwise (fun a b => a < b) ([2] : List Int)
        ∧ (∀ l ∈ ([2] : List Int), 0 ≤ l)
        ∧ (∀ t ∈ ([([2], Operation.and_match)] : List (List Int × Operation)), ∀ l ∈ t.1, 0 ≤ l)
        ∧ (∃ t ∈ ([([2], Operation.and_match)] : List (List Int × Operation)),
            t.2 = Operation.and_match))
      ∧ ((cliConfig 0 false false false).window_size = 0
        ∧ ∀ w ∈ scan_with_config (cliConfig 0 false false false) [2]
            [([2], Operation.and_match)], w.end_ = w.start) :=
  ⟨⟨by decide, by decide, by decide, by decide, by decide⟩,
   near_C9_amended_size_never_validated 0 false false false [2] [([2], Operation.and_match)]
     (by decide) (by decide) (by decide) (by decide) (by decide)⟩

/-- C5 amended witness: with the default configuration, primary hits `[0]`
and a required term hitting `[1]`, the emitted window `(0,1)` starts at the
primary hit 0. -/
theorem near_C5_amended_windows_anchor_on_primary_witness :
    (⟨0, 1, true, []⟩ : Window)
        ∈ scan_with_config Config.default_config [0] [([1], Operation.and_match)]
      ∧ (⟨0, 1, true, []⟩ : Window).start ∈ ([0] : List Int) :=
  ⟨by decide,
   near_C5_amended_windows_anchor_on_primary Config.default_config [0]
     [([1], Operation.and_match)] ⟨0, 1, true, []⟩ (by decide)⟩
